import Mathlib

/-!
Verification of the DynoGraph dataset/batching/windowing engine.

The C++/C sources are shallowly embedded: `int64_t` becomes `ℤ`, `double`
(only ever used for ratios in `[0,1]` and products that are floored into
integers) becomes `ℚ`, fatal `die()` paths become `Except.error`, and
`std::vector<Edge>` slices become `List Edge`.  `std::sort` is modelled by
`List.insertionSort` over the reflexive closure of the source comparator
(`std::sort` only guarantees a sorted permutation; every theorem below is
insensitive to how ties of the full comparator are broken).
-/

namespace DynoGraph

/-- `struct Edge { int64_t src; int64_t dst; int64_t weight; int64_t timestamp; }` -/
structure Edge where
  src : ℤ
  dst : ℤ
  weight : ℤ
  timestamp : ℤ
deriving DecidableEq, Repr, Inhabited

/-- `DynoGraph::operator<(const Edge&, const Edge&)`: order by src ascending,
then dst ascending, then timestamp descending. -/
def edgeLt (a b : Edge) : Prop :=
  if a.src ≠ b.src then a.src < b.src
  else if a.dst ≠ b.dst then a.dst < b.dst
  else a.timestamp > b.timestamp

instance : DecidableRel edgeLt := by
  unfold edgeLt; infer_instance

theorem edgeLt_iff (a b : Edge) :
    edgeLt a b ↔ (a.src < b.src ∨ (a.src = b.src ∧
      (a.dst < b.dst ∨ (a.dst = b.dst ∧ b.timestamp < a.timestamp)))) := by
  unfold edgeLt
  split_ifs <;> omega

/-- The (non-strict) order that a list sorted by `std::sort(·, ·, edgeLt)`
satisfies between consecutive elements: `¬ edgeLt b a`. -/
def EdgeLe (a b : Edge) : Prop := ¬ edgeLt b a

instance : DecidableRel EdgeLe := by
  unfold EdgeLe; infer_instance

theorem EdgeLe_iff (a b : Edge) :
    EdgeLe a b ↔ (a.src < b.src ∨ (a.src = b.src ∧
      (a.dst < b.dst ∨ (a.dst = b.dst ∧ b.timestamp ≤ a.timestamp)))) ∨
      (a.src = b.src ∧ a.dst = b.dst ∧ a.timestamp = b.timestamp) := by
  unfold EdgeLe
  rw [edgeLt_iff]
  omega

instance : IsTotal Edge EdgeLe :=
  ⟨fun a b => by rw [EdgeLe_iff, EdgeLe_iff]; omega⟩

instance : IsTrans Edge EdgeLe :=
  ⟨fun a b c hab hbc => by
    rw [EdgeLe_iff] at hab hbc ⊢; omega⟩

/-- The deduplication key: "we consider only source and dest when searching
for duplicates". -/
def key (e : Edge) : ℤ × ℤ := (e.src, e.dst)

/-- The binary predicate passed to `std::unique_copy` in
`DeduplicatedBatch::DeduplicatedBatch`. -/
def sameKey (a b : Edge) : Bool := a.src == b.src && a.dst == b.dst

theorem sameKey_iff (a b : Edge) : sameKey a b = true ↔ key a = key b := by
  simp [sameKey, key, Prod.ext_iff]

section UniqueCopy

variable {α : Type} {κ : Type} [DecidableEq κ]

/-- Tail of `std::unique_copy`: each input element is compared (with `p`)
against the most recently written element; duplicates are skipped. -/
def uniqueCopyAux (p : α → α → Bool) : α → List α → List α
  | _, [] => []
  | last, x :: xs =>
    if p last x then uniqueCopyAux p last xs else x :: uniqueCopyAux p x xs

/-- `std::unique_copy(first, last, out, p)`. -/
def uniqueCopy (p : α → α → Bool) : List α → List α
  | [] => []
  | x :: xs => x :: uniqueCopyAux p x xs

variable (k : α → κ) (le : α → α → Prop)
variable (p : α → α → Bool)

theorem uniqueCopyAux_filter
    (hp : ∀ a b, p a b = true ↔ k a = k b)
    (hbetw : ∀ a b c, le a b → le b c → k c = k a → k b = k a)
    (c : κ) :
    ∀ (l : List α) (last : α), (last :: l).Pairwise le →
      (uniqueCopyAux p last l).filter (fun x => decide (k x = c)) =
        if k last = c then [] else (l.filter (fun x => decide (k x = c))).take 1 := by
  intro l
  induction l with
  | nil =>
    intro last _
    simp [uniqueCopyAux]
  | cons x xs ih =>
    intro last hpw
    have hpw_last_xs : (last :: xs).Pairwise le := by
      refine List.Pairwise.sublist ?_ hpw
      exact List.Sublist.cons₂ last (List.sublist_cons_self x xs)
    have hpw_x_xs : (x :: xs).Pairwise le := (List.pairwise_cons.mp hpw).2
    have h_last_x : le last x := (List.pairwise_cons.mp hpw).1 x (by simp)
    by_cases hkey : p last x = true
    · -- duplicate of the last written element: skipped
      have hkk : k x = k last := ((hp last x).mp hkey).symm
      rw [uniqueCopyAux, if_pos hkey, ih last hpw_last_xs]
      by_cases hc : k last = c
      · simp [hc]
      · rw [if_neg hc, if_neg hc]
        have : (decide (k x = c)) = false := by
          simp [hkk]
          exact hc
        simp [List.filter_cons, this]
    · -- new key: written out, becomes the comparison element
      have hkk : k x ≠ k last := fun h => hkey ((hp last x).mpr h.symm)
      rw [uniqueCopyAux, if_neg hkey]
      by_cases hcx : k x = c
      · -- the head is the (first) representative of key c
        have hlast_ne : k last ≠ c := fun h => hkk (hcx.trans h.symm)
        rw [if_neg hlast_ne]
        rw [List.filter_cons_of_pos (by simpa using hcx),
            List.filter_cons_of_pos (by simpa using hcx)]
        rw [ih x hpw_x_xs, if_pos hcx]
        simp
      · rw [List.filter_cons_of_neg (by simpa using hcx),
            ih x hpw_x_xs, if_neg hcx]
        by_cases hcl : k last = c
        · -- all of xs is past the run of key `c = k last`: nothing matches
          rw [if_pos hcl]
          have : xs.filter (fun y => decide (k y = c)) = [] := by
            rw [List.filter_eq_nil_iff]
            intro z hz hzc
            have hzc' : k z = c := by simpa using hzc
            have h_x_z : le x z :=
              (List.pairwise_cons.mp hpw_x_xs).1 z hz
            have : k x = k last := hbetw last x z h_last_x h_x_z
              (hzc'.trans hcl.symm)
            exact hkk this
          simp [this]
        · rw [if_neg hcl, List.filter_cons_of_neg (by simpa using hcx)]

theorem uniqueCopy_filter
    (hp : ∀ a b, p a b = true ↔ k a = k b)
    (hbetw : ∀ a b c, le a b → le b c → k c = k a → k b = k a)
    (c : κ) (l : List α) (hl : l.Pairwise le) :
    (uniqueCopy p l).filter (fun x => decide (k x = c)) =
      (l.filter (fun x => decide (k x = c))).take 1 := by
  cases l with
  | nil => simp [uniqueCopy]
  | cons x xs =>
    rw [uniqueCopy]
    by_cases hcx : k x = c
    · rw [List.filter_cons_of_pos (by simpa using hcx),
          List.filter_cons_of_pos (by simpa using hcx),
          uniqueCopyAux_filter k le p hp hbetw c xs x hl, if_pos hcx]
      simp
    · rw [List.filter_cons_of_neg (by simpa using hcx),
          List.filter_cons_of_neg (by simpa using hcx),
          uniqueCopyAux_filter k le p hp hbetw c xs x hl, if_neg hcx]

/-- A key occurs in the deduplicated output iff it occurs in the input. -/
theorem uniqueCopy_mem_key
    (hp : ∀ a b, p a b = true ↔ k a = k b)
    (hbetw : ∀ a b c, le a b → le b c → k c = k a → k b = k a)
    (c : κ) (l : List α) (hl : l.Pairwise le) :
    (∃ x ∈ uniqueCopy p l, k x = c) ↔ (∃ x ∈ l, k x = c) := by
  have hfilter := uniqueCopy_filter k le p hp hbetw c l hl
  have hne : ∀ (m : List α), (∃ x ∈ m, k x = c) ↔ m.filter (fun x => decide (k x = c)) ≠ [] := by
    intro m
    rw [Ne, List.filter_eq_nil_iff]
    push_neg
    simp
  rw [hne, hne, hfilter, Ne, List.take_eq_nil_iff]
  simp

end UniqueCopy

/-- The sort performed in `DeduplicatedBatch::DeduplicatedBatch`
(`std::sort(sorted_edges.begin(), sorted_edges.end())` with
`DynoGraph::operator<`), modelled as insertion sort over the induced total
preorder `EdgeLe`. -/
def sortEdges (l : List Edge) : List Edge := List.insertionSort EdgeLe l

/-- `DeduplicatedBatch::DeduplicatedBatch`: copy the batch, sort it, and
collapse (src,dst)-duplicates with `std::unique_copy`; "the input is sorted,
so we'll only get the most recent timestamp". -/
def dedupEdges (l : List Edge) : List Edge := uniqueCopy sameKey (sortEdges l)

theorem key_betw (a b c : Edge) (hab : EdgeLe a b) (hbc : EdgeLe b c)
    (h : key c = key a) : key b = key a := by
  rw [EdgeLe_iff] at hab hbc
  rw [key, key, Prod.mk.injEq] at h ⊢
  omega

theorem sortEdges_pairwise (l : List Edge) : (sortEdges l).Pairwise EdgeLe :=
  List.sorted_insertionSort EdgeLe l

theorem dedupEdges_filter (l : List Edge) (c : ℤ × ℤ) :
    (dedupEdges l).filter (fun e => decide (key e = c)) =
      ((sortEdges l).filter (fun e => decide (key e = c))).take 1 :=
  uniqueCopy_filter key EdgeLe sameKey sameKey_iff key_betw c _ (sortEdges_pairwise l)

/-- Deduplication preserves the set of (src,dst) keys present in the batch. -/
theorem dedupEdges_mem_key (l : List Edge) (c : ℤ × ℤ) :
    (∃ e ∈ dedupEdges l, key e = c) ↔ ∃ e ∈ l, key e = c := by
  rw [dedupEdges,
    uniqueCopy_mem_key key EdgeLe sameKey sameKey_iff key_betw c _ (sortEdges_pairwise l)]
  simp [sortEdges]

/-- C1: for a batch containing an edge `m` with key (s,d) whose timestamp is
strictly greatest among all (s,d)-edges of the batch, the deduplicated view
contains exactly one (s,d)-edge, namely `m` itself — with `m`'s weight,
the weights of discarded duplicates not merged in. -/
theorem dedup_keeps_newest_edge (b : List Edge) (s d : ℤ) (m : Edge)
    (hm : m ∈ b) (hsrc : m.src = s) (hdst : m.dst = d)
    (hmax : ∀ f ∈ b, f.src = s → f.dst = d → f = m ∨ f.timestamp < m.timestamp) :
    (dedupEdges b).filter (fun e => e.src == s && e.dst == d) = [m] := by
  have hpred : ∀ e ∈ dedupEdges b, (e.src == s && e.dst == d) = decide (key e = (s, d)) := by
    intro e _
    rw [Bool.eq_iff_iff]
    simp [key, Prod.ext_iff]
  rw [List.filter_congr hpred, dedupEdges_filter]
  have hpw : ((sortEdges b).filter (fun e => decide (key e = (s, d)))).Pairwise EdgeLe :=
    List.Pairwise.filter _ (sortEdges_pairwise b)
  have hmG : m ∈ (sortEdges b).filter (fun e => decide (key e = (s, d))) := by
    refine List.mem_filter.mpr ⟨?_, by simp [key, hsrc, hdst]⟩
    simp [sortEdges, hm]
  have hsub : ∀ x ∈ (sortEdges b).filter (fun e => decide (key e = (s, d))),
      x ∈ b ∧ x.src = s ∧ x.dst = d := by
    intro x hx
    have h1 := List.mem_filter.mp hx
    have h2 : key x = (s, d) := by simpa using h1.2
    rw [key, Prod.mk.injEq] at h2
    refine ⟨?_, h2.1, h2.2⟩
    have := h1.1
    rwa [sortEdges, List.mem_insertionSort] at this
  generalize hGe : (sortEdges b).filter (fun e => decide (key e = (s, d))) = G at hpw hmG hsub ⊢
  cases G with
  | nil => cases hmG
  | cons h0 t =>
    have hh0 := hsub h0 (List.mem_cons_self h0 t)
    have h0m : h0 = m := by
      by_contra hne
      have hmt : m ∈ t := by
        rcases List.mem_cons.mp hmG with h | h
        · exact absurd h.symm hne
        · exact h
      have hle : EdgeLe h0 m := (List.pairwise_cons.mp hpw).1 m hmt
      rw [EdgeLe_iff] at hle
      rcases hmax h0 hh0.1 hh0.2.1 hh0.2.2 with h | hts
      · exact hne h
      · have h1 : h0.src = m.src := by rw [hh0.2.1, hsrc]
        have h2 : h0.dst = m.dst := by rw [hh0.2.2, hdst]
        omega
    simp [h0m]

/-- Witness for C1 at the spec's concrete example: edges (1,2,w1,t1) and
(1,2,w2,t2) with t2 > t1 collapse to exactly (1,2,w2,t2). -/
theorem dedup_keeps_newest_edge_witness :
    (dedupEdges [⟨1, 2, 10, 5⟩, ⟨1, 2, 20, 7⟩]).filter
        (fun e => e.src == 1 && e.dst == 2) = [⟨1, 2, 20, 7⟩] :=
  dedup_keeps_newest_edge [⟨1, 2, 10, 5⟩, ⟨1, 2, 20, 7⟩] 1 2 ⟨1, 2, 20, 7⟩
    (by decide) rfl rfl (by decide)

/-- The `std::sort` over vertex ids in `DeduplicatedBatch::num_vertices_affected`. -/
def sortInts (l : List ℤ) : List ℤ := List.insertionSort (· ≤ ·) l

/-- Sort the vertex-id list and count it after `std::unique_copy` with the
default equality, as `DeduplicatedBatch::num_vertices_affected` does. -/
def countDistinct (l : List ℤ) : ℕ :=
  (uniqueCopy (fun a b : ℤ => a == b) (sortInts l)).length

theorem sortInts_pairwise (l : List ℤ) : (sortInts l).Pairwise (· ≤ ·) :=
  List.sorted_insertionSort _ l

theorem int_le_betw (a b c : ℤ) (hab : a ≤ b) (hbc : b ≤ c) (h : id c = id a) :
    id b = id a := by
  simp only [id] at h ⊢
  omega

theorem int_beq_iff (a b : ℤ) : (a == b) = true ↔ id a = id b := by
  simp

theorem countDistinct_eq_card (l : List ℤ) : countDistinct l = l.toFinset.card := by
  have hpw := sortInts_pairwise l
  have hnodup : (uniqueCopy (fun a b : ℤ => a == b) (sortInts l)).Nodup := by
    rw [List.nodup_iff_count_le_one]
    intro a
    rw [List.count_eq_countP, List.countP_eq_length_filter]
    have hcongr : (uniqueCopy (fun a b : ℤ => a == b) (sortInts l)).filter (· == a) =
        (uniqueCopy (fun a b : ℤ => a == b) (sortInts l)).filter
          (fun x => decide (id x = a)) :=
      List.filter_congr (fun x _ => by rw [Bool.eq_iff_iff]; simp)
    rw [hcongr,
      uniqueCopy_filter id (· ≤ ·) (fun a b : ℤ => a == b) int_beq_iff int_le_betw a _ hpw]
    rw [List.length_take]
    exact min_le_left _ _
  have hmem : ∀ a : ℤ, a ∈ uniqueCopy (fun a b : ℤ => a == b) (sortInts l) ↔ a ∈ l := by
    intro a
    have h := uniqueCopy_mem_key id (· ≤ ·) (fun a b : ℤ => a == b)
      int_beq_iff int_le_betw a _ hpw
    simp only [id_eq] at h
    constructor
    · intro hin
      have := h.mp ⟨a, hin, rfl⟩
      rcases this with ⟨x, hx, hxa⟩
      rw [← hxa]
      rwa [sortInts, List.mem_insertionSort] at hx
    · intro hin
      have := h.mpr ⟨a, by rwa [sortInts, List.mem_insertionSort], rfl⟩
      rcases this with ⟨x, hx, hxa⟩
      rwa [← hxa]
  unfold countDistinct
  rw [← List.toFinset_card_of_nodup hnodup]
  congr 1
  ext a
  simp only [List.mem_toFinset]
  exact hmem a

/-- `DeduplicatedBatch::num_vertices_affected()`: collect the srcs and dsts of
the deduplicated edges into one list, sort it, `std::unique_copy` it with the
default equality, and return the resulting length. -/
def numVerticesAffectedDedup (deduped : List Edge) : ℕ :=
  countDistinct (deduped.map Edge.src ++ deduped.map Edge.dst)

/-- `Batch::num_vertices_affected()`: "We need to sort and deduplicate anyways,
just use the implementation in DeduplicatedBatch". -/
def numVerticesAffected (b : List Edge) : ℕ :=
  numVerticesAffectedDedup (dedupEdges b)

theorem dedup_mem_src (b : List Edge) (x : ℤ) :
    (∃ e ∈ dedupEdges b, e.src = x) ↔ ∃ e ∈ b, e.src = x := by
  constructor
  · rintro ⟨e, he, hx⟩
    rcases (dedupEdges_mem_key b (key e)).mp ⟨e, he, rfl⟩ with ⟨f, hf, hkf⟩
    rw [key, key, Prod.mk.injEq] at hkf
    exact ⟨f, hf, by rw [hkf.1, hx]⟩
  · rintro ⟨e, he, hx⟩
    rcases (dedupEdges_mem_key b (key e)).mpr ⟨e, he, rfl⟩ with ⟨f, hf, hkf⟩
    rw [key, key, Prod.mk.injEq] at hkf
    exact ⟨f, hf, by rw [hkf.1, hx]⟩

theorem dedup_mem_dst (b : List Edge) (x : ℤ) :
    (∃ e ∈ dedupEdges b, e.dst = x) ↔ ∃ e ∈ b, e.dst = x := by
  constructor
  · rintro ⟨e, he, hx⟩
    rcases (dedupEdges_mem_key b (key e)).mp ⟨e, he, rfl⟩ with ⟨f, hf, hkf⟩
    rw [key, key, Prod.mk.injEq] at hkf
    exact ⟨f, hf, by rw [hkf.2, hx]⟩
  · rintro ⟨e, he, hx⟩
    rcases (dedupEdges_mem_key b (key e)).mpr ⟨e, he, rfl⟩ with ⟨f, hf, hkf⟩
    rw [key, key, Prod.mk.injEq] at hkf
    exact ⟨f, hf, by rw [hkf.2, hx]⟩

/-- C10: `num_vertices_affected()` — on the deduplicated view as well as on the
plain batch — equals the number of distinct vertex ids occurring as src or dst
of at least one edge of the (original) batch; in particular the count is
unchanged by deduplication. -/
theorem num_vertices_affected_distinct_endpoints (b : List Edge) :
    numVerticesAffectedDedup (dedupEdges b) =
        ((b.map Edge.src ++ b.map Edge.dst).toFinset).card ∧
      numVerticesAffected b = ((b.map Edge.src ++ b.map Edge.dst).toFinset).card := by
  have h : numVerticesAffectedDedup (dedupEdges b) =
      ((b.map Edge.src ++ b.map Edge.dst).toFinset).card := by
    rw [numVerticesAffectedDedup, countDistinct_eq_card]
    congr 1
    ext x
    simp only [List.mem_toFinset, List.mem_append, List.mem_map]
    constructor
    · rintro (⟨e, he, hx⟩ | ⟨e, he, hx⟩)
      · rcases (dedup_mem_src b x).mp ⟨e, he, hx⟩ with ⟨f, hf, hfx⟩
        exact Or.inl ⟨f, hf, hfx⟩
      · rcases (dedup_mem_dst b x).mp ⟨e, he, hx⟩ with ⟨f, hf, hfx⟩
        exact Or.inr ⟨f, hf, hfx⟩
    · rintro (⟨e, he, hx⟩ | ⟨e, he, hx⟩)
      · rcases (dedup_mem_src b x).mpr ⟨e, he, hx⟩ with ⟨f, hf, hfx⟩
        exact Or.inl ⟨f, hf, hfx⟩
      · rcases (dedup_mem_dst b x).mpr ⟨e, he, hx⟩ with ⟨f, hf, hfx⟩
        exact Or.inr ⟨f, hf, hfx⟩
  exact ⟨h, h⟩

/-- `Args::SORT_MODE`. -/
inductive SORT_MODE
  | UNSORTED
  | PRESORT
  | SNAPSHOT
deriving DecidableEq, Repr, Inhabited

/-- `struct Args` (C++): the per-run configuration. `double window_size` is
modelled as `ℚ`. -/
structure Args where
  num_epochs : ℤ
  input_path : String
  batch_size : ℤ
  alg_names : List String
  sort_mode : SORT_MODE
  window_size : ℚ
  num_trials : ℤ
deriving DecidableEq, Repr

/-- The `std::is_sorted(edges, [](a,b){ return a.timestamp < b.timestamp; })`
check of `EdgeListDataset::EdgeListDataset`: no adjacent pair is strictly
decreasing in timestamp, i.e. timestamps are non-decreasing. -/
def sortedByTimestamp : List Edge → Bool
  | a :: b :: rest => decide (a.timestamp ≤ b.timestamp) && sortedByTimestamp (b :: rest)
  | _ => true

/-- The `std::find_if(edges, [](e){ return e.src == e.dst; })` self-edge scan. -/
def hasSelfEdge (l : List Edge) : Bool := l.any (fun e => e.src == e.dst)

/-- `std::max_element` over `max(src, dst)`; only reached on nonempty edge
lists when `batch_size ≥ 1` (on `[]` the C++ dereferences `end()`, which is
undefined; we return 0 there). -/
def maxVertexId (l : List Edge) : ℤ :=
  match l.map (fun e => max e.src e.dst) with
  | [] => 0
  | x :: xs => xs.foldl max x

/-- `edges.front().timestamp` (0 for the unreachable empty case). -/
def headTimestamp (l : List Edge) : ℤ :=
  match l with
  | [] => 0
  | e :: _ => e.timestamp

/-- `edges.back().timestamp` (default edge for the unreachable empty case). -/
def lastTimestamp (l : List Edge) : ℤ := (l.getLastD default).timestamp

/-- The batch-slicing loop at the end of `EdgeListDataset::EdgeListDataset`:
batch `i` is the contiguous run of positions `[i*batch_size, (i+1)*batch_size)`,
for `i < num_batches = edges.size() / batch_size`. -/
def makeBatches (edges : List Edge) (batch_size : ℕ) : List (List Edge) :=
  (List.range (edges.length / batch_size)).map
    (fun i => (edges.drop (i * batch_size)).take batch_size)

instance exceptDecidableEq {ε α : Type} [DecidableEq ε] [DecidableEq α] :
    DecidableEq (Except ε α)
  | .error e, .error f =>
    if h : e = f then .isTrue (by rw [h]) else .isFalse (by simp [h])
  | .error _, .ok _ => .isFalse (by simp)
  | .ok _, .error _ => .isFalse (by simp)
  | .ok a, .ok b =>
    if h : a = b then .isTrue (by rw [h]) else .isFalse (by simp [h])

structure EdgeListDataset where
  args : Args
  edges : List Edge
  batches : List (List Edge)
  max_vertex_id : ℤ
  min_timestamp : ℤ
  max_timestamp : ℤ
deriving DecidableEq, Repr

/-- `EdgeListDataset::EdgeListDataset` after the edge list has been loaded:
validation (each `die()` becomes `Except.error`) followed by derived-fact and
batch construction.  The first guard models
`static_cast<size_t>(args.batch_size) > edges.size()`: a negative
`batch_size` wraps around to a huge unsigned value and also trips it. -/
def createEdgeListDataset (args : Args) (edges : List Edge) :
    Except String EdgeListDataset :=
  if args.batch_size < 0 ∨ (edges.length : ℤ) < args.batch_size then
    .error "Invalid arguments: batch size cannot be larger than the total number of edges in the dataset"
  else if ((edges.length / args.batch_size.toNat : ℕ) : ℤ) < args.num_epochs then
    .error "Invalid arguments: number of epochs cannot be greater than the number of batches in the dataset"
  else if ¬ sortedByTimestamp edges then
    .error "Invalid dataset: edges not sorted by timestamp"
  else if hasSelfEdge edges then
    .error "Invalid dataset: no self-edges allowed"
  else
    .ok { args := args
          edges := edges
          batches := makeBatches edges args.batch_size.toNat
          max_vertex_id := maxVertexId edges
          min_timestamp := headTimestamp edges
          max_timestamp := lastTimestamp edges }

theorem create_ok_elim {args : Args} {edges : List Edge} {d : EdgeListDataset}
    (h : createEdgeListDataset args edges = .ok d) :
    d.args = args ∧ d.edges = edges ∧
      d.batches = makeBatches edges args.batch_size.toNat ∧
      d.max_vertex_id = maxVertexId edges ∧
      d.min_timestamp = headTimestamp edges ∧
      d.max_timestamp = lastTimestamp edges ∧
      sortedByTimestamp edges = true ∧ hasSelfEdge edges = false ∧
      (0 ≤ args.batch_size ∧ args.batch_size ≤ (edges.length : ℤ)) ∧
      args.num_epochs ≤ ((edges.length / args.batch_size.toNat : ℕ) : ℤ) := by
  unfold createEdgeListDataset at h
  split_ifs at h with h1 h2 h3 h4
  injection h with h'
  subst h'
  refine ⟨rfl, rfl, rfl, rfl, rfl, rfl, ?_, ?_, ?_, ?_⟩
  · simpa using h3
  · simpa using h4
  · omega
  · omega

theorem makeBatches_length (edges : List Edge) (bs : ℕ) :
    (makeBatches edges bs).length = edges.length / bs := by
  simp [makeBatches]

theorem makeBatches_getElem (edges : List Edge) (bs i : ℕ)
    (hi : i < edges.length / bs) :
    (makeBatches edges bs)[i]? = some ((edges.drop (i * bs)).take bs) := by
  simp [makeBatches, List.getElem?_range hi]

theorem slice_length (edges : List Edge) (bs i : ℕ) (hi : i < edges.length / bs) :
    ((edges.drop (i * bs)).take bs).length = bs := by
  have h1 : i * bs + bs ≤ edges.length := by
    calc i * bs + bs = (i + 1) * bs := by ring
    _ ≤ edges.length / bs * bs := Nat.mul_le_mul_right bs hi
    _ ≤ edges.length := Nat.div_mul_le_self _ _
  rw [List.length_take, List.length_drop]
  omega

theorem flatten_slices (l : List Edge) (bs : ℕ) :
    ∀ n : ℕ, ((List.range n).map (fun i => (l.drop (i * bs)).take bs)).flatten
      = l.take (n * bs)
  | 0 => by simp
  | n + 1 => by
    rw [List.range_succ, List.map_append, List.flatten_append, flatten_slices l bs n]
    simp only [List.map_cons, List.map_nil, List.flatten_cons, List.flatten_nil,
      List.append_nil]
    rw [← List.take_add]
    congr 1
    ring

/-- C3: a successfully constructed dataset has exactly
`num_batches = edges.length / batch_size` batches; batch `i` is exactly the
contiguous slice `[i*batch_size, (i+1)*batch_size)` of length `batch_size`
(so the batches are non-overlapping), and their concatenation is the first
`num_batches * batch_size` edges — the trailing `edges.length % batch_size`
edges belong to no batch. -/
theorem batches_partition (args : Args) (edges : List Edge) (d : EdgeListDataset)
    (h : createEdgeListDataset args edges = .ok d) (_hbs : 1 ≤ args.batch_size) :
    d.batches.length = edges.length / args.batch_size.toNat ∧
      (∀ i : ℕ, i < edges.length / args.batch_size.toNat →
        d.batches[i]? =
            some ((edges.drop (i * args.batch_size.toNat)).take args.batch_size.toNat) ∧
          ((edges.drop (i * args.batch_size.toNat)).take args.batch_size.toNat).length =
            args.batch_size.toNat) ∧
      d.batches.flatten =
        edges.take (edges.length / args.batch_size.toNat * args.batch_size.toNat) := by
  obtain ⟨-, -, hb, -⟩ := create_ok_elim h
  refine ⟨?_, ?_, ?_⟩
  · rw [hb, makeBatches_length]
  · intro i hi
    exact ⟨by rw [hb]; exact makeBatches_getElem edges _ i hi,
      slice_length edges _ i hi⟩
  · rw [hb, makeBatches, flatten_slices]

/-- Witness for C3: five edges, batch size two — two batches, one trailing
edge excluded. -/
theorem batches_partition_witness :
    (let args : Args := ⟨1, "x.graph.el", 2, [], SORT_MODE.UNSORTED, 1, 1⟩
    let edges : List Edge :=
      [⟨1, 2, 1, 0⟩, ⟨1, 3, 1, 1⟩, ⟨2, 3, 1, 2⟩, ⟨2, 4, 1, 3⟩, ⟨3, 4, 1, 4⟩]
    let d : EdgeListDataset :=
      { args := args, edges := edges,
        batches := [[⟨1, 2, 1, 0⟩, ⟨1, 3, 1, 1⟩], [⟨2, 3, 1, 2⟩, ⟨2, 4, 1, 3⟩]],
        max_vertex_id := 4, min_timestamp := 0, max_timestamp := 4 }
    d.batches.length = edges.length / args.batch_size.toNat ∧
      (∀ i : ℕ, i < edges.length / args.batch_size.toNat →
        d.batches[i]? =
            some ((edges.drop (i * args.batch_size.toNat)).take args.batch_size.toNat) ∧
          ((edges.drop (i * args.batch_size.toNat)).take args.batch_size.toNat).length =
            args.batch_size.toNat) ∧
      d.batches.flatten =
        edges.take (edges.length / args.batch_size.toNat * args.batch_size.toNat)) := by
  refine batches_partition _ _ _ (by decide) (by decide)

/-- C5: dataset construction succeeds only on timestamp-sorted, self-edge-free
edge lists; an input violating either invariant is always rejected (`die()`),
never accepted. -/
theorem create_validates (args : Args) (edges : List Edge) :
    (∀ d, createEdgeListDataset args edges = .ok d →
      sortedByTimestamp edges = true ∧ hasSelfEdge edges = false) ∧
    (sortedByTimestamp edges = false ∨ hasSelfEdge edges = true →
      ∀ d, createEdgeListDataset args edges ≠ .ok d) := by
  constructor
  · intro d h
    obtain ⟨-, -, -, -, -, -, hs, hse, -⟩ := create_ok_elim h
    exact ⟨hs, hse⟩
  · intro hviol d h
    obtain ⟨-, -, -, -, -, -, hs, hse, -⟩ := create_ok_elim h
    rcases hviol with h1 | h1
    · rw [hs] at h1
      exact Bool.noConfusion h1
    · rw [hse] at h1
      exact Bool.noConfusion h1

/-- Witness for C5: a single self-edge is rejected. -/
theorem create_validates_witness :
    ∀ d, createEdgeListDataset ⟨1, "x.graph.el", 1, [], SORT_MODE.UNSORTED, 1, 1⟩
      [⟨1, 1, 1, 0⟩] ≠ .ok d :=
  (create_validates _ _).2 (Or.inr (by decide))

/-- `EdgeListDataset::getTimestampForWindow(batchId)`:
`window_time = round_down(window_size * (max_timestamp - min_timestamp))`,
`latest_time = (batches[batchId].end()-1)->timestamp`, result
`max(min_timestamp, latest_time - window_time)`.  (An out-of-range `batchId`
indexes past the vectors in C++; the `getD` defaults are only for totality.) -/
def EdgeListDataset.getTimestampForWindow (d : EdgeListDataset) (batchId : ℕ) : ℤ :=
  let window_time : ℤ :=
    ⌊d.args.window_size * ((d.max_timestamp - d.min_timestamp : ℤ) : ℚ)⌋
  let latest_time : ℤ := ((d.batches.getD batchId []).getLastD default).timestamp
  max d.min_timestamp (latest_time - window_time)

/-- `RmatDataset::getTimestampForWindow(batchId)`:
`window_time = num_edges * window_size` (the `double` product truncated into an
`int64_t`, i.e. floored for the nonnegative values that occur), and
`latest_time = (batchId+1) * batch_size`; result `max(0, latest_time - window_time)`. -/
def rmatGetTimestampForWindow (num_edges batch_size : ℤ) (window_size : ℚ)
    (batchId : ℤ) : ℤ :=
  let window_time : ℤ := ⌊(num_edges : ℚ) * window_size⌋
  let latest_time : ℤ := (batchId + 1) * batch_size
  max 0 (latest_time - window_time)

/-- The formula claimed by the spec for `getTimestampForWindow`, stated in its
own words for refinement comparison:
`max(min_timestamp, t_last − floor(window_size × (max_timestamp − min_timestamp)))`. -/
def specTimestampForWindow (min_ts max_ts : ℤ) (window_size : ℚ) (t_last : ℤ) : ℤ :=
  max min_ts (t_last - ⌊window_size * ((max_ts - min_ts : ℤ) : ℚ)⌋)

/-- Modelled from the spec: RMAT timestamps are "assigned sequentially"
starting from 0 (`RmatDataset::getMinTimestamp` is not in the sources). -/
def rmatMinTimestamp (_num_edges : ℤ) : ℤ := 0

/-- Modelled from the spec: with timestamps assigned sequentially from 0, the
greatest timestamp of an RMAT dataset of `num_edges` edges is `num_edges - 1`
(`RmatDataset::getMaxTimestamp` is not in the sources). -/
def rmatMaxTimestamp (num_edges : ℤ) : ℤ := num_edges - 1

/-- C4 (amended): for every `EdgeListDataset` and valid batch id the claimed
formula holds exactly, with `t_last` the timestamp of the edge at global
position `(batchId+1)*batch_size - 1`; the `RmatDataset`, however, computes
`max(0, (batchId+1)*batch_size − floor(num_edges × window_size))` instead. -/
theorem getTimestampForWindow_eq (args : Args) (edges : List Edge)
    (d : EdgeListDataset) (h : createEdgeListDataset args edges = .ok d)
    (hbs : 1 ≤ args.batch_size)
    (i : ℕ) (hi : i < edges.length / args.batch_size.toNat) :
    d.getTimestampForWindow i =
      specTimestampForWindow d.min_timestamp d.max_timestamp args.window_size
        ((edges.getD ((i + 1) * args.batch_size.toNat - 1) default).timestamp) ∧
    ∀ (ne bs : ℤ) (ws : ℚ) (j : ℤ), rmatGetTimestampForWindow ne bs ws j =
      max 0 ((j + 1) * bs - ⌊(ne : ℚ) * ws⌋) := by
  obtain ⟨hargs, -, hb, -⟩ := create_ok_elim h
  refine ⟨?_, fun ne bs ws j => rfl⟩
  have hbs1 : 1 ≤ args.batch_size.toNat := by omega
  set bs := args.batch_size.toNat with hbs_def
  have hlast : ((d.batches.getD i []).getLastD default).timestamp =
      (edges.getD ((i + 1) * bs - 1) default).timestamp := by
    have hslice : d.batches.getD i [] = (edges.drop (i * bs)).take bs := by
      rw [List.getD_eq_getElem?_getD, hb, makeBatches_getElem edges bs i hi]
      rfl
    have hlen : ((edges.drop (i * bs)).take bs).length = bs :=
      slice_length edges bs i hi
    have hle : i * bs + bs ≤ edges.length := by
      calc i * bs + bs = (i + 1) * bs := by ring
      _ ≤ edges.length / bs * bs := Nat.mul_le_mul_right bs hi
      _ ≤ edges.length := Nat.div_mul_le_self _ _
    have hidx : i * bs + (bs - 1) < edges.length := by omega
    have hgl : ((edges.drop (i * bs)).take bs).getLast? =
        edges[i * bs + (bs - 1)]? := by
      rw [List.getLast?_eq_getElem?, hlen, List.getElem?_take_of_lt (by omega),
        List.getElem?_drop]
    have hix : (i + 1) * bs - 1 = i * bs + (bs - 1) := by
      have h2 : (i + 1) * bs = i * bs + bs := by ring
      omega
    rw [hslice, List.getLastD_eq_getLast?, hgl, List.getElem?_eq_getElem hidx,
      hix, List.getD_eq_getElem?_getD, List.getElem?_eq_getElem hidx]
  rw [EdgeListDataset.getTimestampForWindow, specTimestampForWindow, hargs, hlast]

/-- Witness for C4 (amended) on a concrete three-edge dataset with
batch size 2. -/
theorem getTimestampForWindow_eq_witness :
    (let args : Args := ⟨1, "x.graph.el", 2, [], SORT_MODE.UNSORTED, 1, 1⟩
    let edges : List Edge := [⟨1, 2, 1, 0⟩, ⟨1, 3, 1, 4⟩, ⟨2, 3, 1, 9⟩]
    let d : EdgeListDataset :=
      { args := args, edges := edges,
        batches := [[⟨1, 2, 1, 0⟩, ⟨1, 3, 1, 4⟩]],
        max_vertex_id := 3, min_timestamp := 0, max_timestamp := 9 }
    d.getTimestampForWindow 0 =
      specTimestampForWindow d.min_timestamp d.max_timestamp args.window_size
        ((edges.getD ((0 + 1) * args.batch_size.toNat - 1) default).timestamp) ∧
    ∀ (ne bs : ℤ) (ws : ℚ) (j : ℤ), rmatGetTimestampForWindow ne bs ws j =
      max 0 ((j + 1) * bs - ⌊(ne : ℚ) * ws⌋)) :=
  getTimestampForWindow_eq _ _ _ (by decide) (by decide) 0 (by decide)

/-- `EdgeListDataset::loadEdgesBinary` for a readable file of `fileSize` bytes
whose decoded 32-byte records are `record 0, record 1, …` (an `Edge` is four
`int64_t`s, so `sizeof(Edge) = 32`): the edge count is the integer division
`st.st_size / sizeof(Edge)`, and the subsequent `fread` of `numEdges` whole
records succeeds because `numEdges * 32 ≤ fileSize`, so the `rc != numEdges`
fatal branch is never taken; no multiple-of-32 check exists. -/
def loadEdgesBinary (fileSize : ℕ) (record : ℕ → Edge) : Except String (List Edge) :=
  Except.ok ((List.range (fileSize / 32)).map record)

/-- Counterexample to C7: a 33-byte file (not a multiple of 32) is not a
fatal dataset error — the loader silently returns one edge. -/
theorem loadEdgesBinary_misaligned_not_fatal :
    loadEdgesBinary 33 (fun _ => ⟨0, 1, 1, 0⟩) = .ok [⟨0, 1, 1, 0⟩] ∧
      ∀ msg, loadEdgesBinary 33 (fun _ => ⟨0, 1, 1, 0⟩) ≠ .error msg := by
  constructor
  · rfl
  · intro msg
    simp [loadEdgesBinary]

/-- C7 (amended): the binary loader never fails on a readable file: it loads
exactly `fileSize / 32` records — the whole file when the size is an exact
multiple of 32, and silently ignoring the trailing `fileSize % 32` bytes
otherwise. -/
theorem loadEdgesBinary_count (fileSize : ℕ) (record : ℕ → Edge) :
    ∃ l, loadEdgesBinary fileSize record = .ok l ∧ l.length = fileSize / 32 :=
  ⟨_, rfl, by simp⟩

/-- The `do { generator.next_edge(&e.src, &e.dst); } while (e.src == e.dst)`
loop of `RmatBatch::RmatBatch`: starting at stream position `n`, consume pairs
until the first non-self pair.  The internals of `rmat_edge_generator`
(helpers.h, not among the sources) are abstracted as a deterministic stream
`g` of candidate (src,dst) pairs; `h` states that the stream keeps producing
non-self pairs, which is exactly the condition under which the C++ loop
terminates. -/
def nextNonSelf (g : ℕ → ℤ × ℤ) (h : ∀ n, ∃ m, n ≤ m ∧ (g m).1 ≠ (g m).2)
    (n : ℕ) : ℕ :=
  Nat.find (h n)

/-- The generation loop of `RmatBatch::RmatBatch`: produce `size` edges,
discarding and regenerating self-edges (they are not counted), each with
weight 1 and sequential timestamps from `first_timestamp` (`t0`); also
returns the generator position after the batch. -/
def rmatEdges (g : ℕ → ℤ × ℤ) (h : ∀ n, ∃ m, n ≤ m ∧ (g m).1 ≠ (g m).2) :
    ℕ → ℤ → ℕ → List Edge × ℕ
  | 0, _, cursor => ([], cursor)
  | size + 1, t0, cursor =>
    let m := nextNonSelf g h cursor
    let e : Edge := ⟨(g m).1, (g m).2, 1, t0⟩
    let r := rmatEdges g h size (t0 + 1) (m + 1)
    (e :: r.1, r.2)

theorem rmatEdges_spec (g : ℕ → ℤ × ℤ)
    (h : ∀ n, ∃ m, n ≤ m ∧ (g m).1 ≠ (g m).2) (size : ℕ) (t0 : ℤ) (cursor : ℕ) :
    (rmatEdges g h size t0 cursor).1.length = size ∧
    (∀ e ∈ (rmatEdges g h size t0 cursor).1, e.src ≠ e.dst ∧ e.weight = 1) ∧
    (rmatEdges g h size t0 cursor).1.map Edge.timestamp =
      (List.range size).map (fun i : ℕ => t0 + (i : ℤ)) := by
  induction size generalizing t0 cursor with
  | zero => simp [rmatEdges]
  | succ n ih =>
    obtain ⟨ih1, ih2, ih3⟩ := ih (t0 + 1) (nextNonSelf g h cursor + 1)
    refine ⟨by simp [rmatEdges, ih1], ?_, ?_⟩
    · intro e he
      rw [rmatEdges] at he
      rcases List.mem_cons.mp he with rfl | hmem
      · exact ⟨(Nat.find_spec (h cursor)).2, rfl⟩
      · exact ih2 e hmem
    · rw [rmatEdges]
      simp only [List.map_cons]
      rw [ih3, List.range_succ_eq_map, List.map_cons, List.map_map]
      congr 1
      · simp
      · apply List.map_congr_left
        intro a _
        simp only [Function.comp_apply]
        push_cast
        ring

/-- C6: every generated RMAT batch contains exactly `size` edges, none of them
a self-edge (generated self-edges are discarded and regenerated, not
counted), each of weight 1, with timestamps assigned sequentially from the
starting timestamp. -/
theorem rmat_batch_no_self_edges (g : ℕ → ℤ × ℤ)
    (h : ∀ n, ∃ m, n ≤ m ∧ (g m).1 ≠ (g m).2) (size : ℕ) (t0 : ℤ) (cursor : ℕ) :
    (rmatEdges g h size t0 cursor).1.length = size ∧
    (∀ e ∈ (rmatEdges g h size t0 cursor).1, e.src ≠ e.dst ∧ e.weight = 1) ∧
    (rmatEdges g h size t0 cursor).1.map Edge.timestamp =
      (List.range size).map (fun i : ℕ => t0 + (i : ℤ)) :=
  rmatEdges_spec g h size t0 cursor

/-- A concrete candidate-pair stream that alternates a non-self pair (0,1)
with a self pair (1,1). -/
def g0 : ℕ → ℤ × ℤ := fun n => if n % 2 = 0 then (0, 1) else (1, 1)

theorem g0_spec : ∀ n, ∃ m, n ≤ m ∧ (g0 m).1 ≠ (g0 m).2 := by
  intro n
  refine ⟨n + n % 2, by omega, ?_⟩
  have h2 : (n + n % 2) % 2 = 0 := by omega
  simp [g0, h2]

/-- Witness for C6 with the concrete stream `g0`, batch size 2, first
timestamp 5. -/
theorem rmat_batch_no_self_edges_witness :
    (rmatEdges g0 g0_spec 2 5 0).1.length = 2 ∧
    (∀ e ∈ (rmatEdges g0 g0_spec 2 5 0).1, e.src ≠ e.dst ∧ e.weight = 1) ∧
    (rmatEdges g0 g0_spec 2 5 0).1.map Edge.timestamp =
      (List.range 2).map (fun i : ℕ => 5 + (i : ℤ)) :=
  rmat_batch_no_self_edges g0 g0_spec 2 5 0

/-- `struct RmatArgs`: the parsed `a-b-c-d-num_edges-num_vertices` descriptor
(`double` probabilities modelled as `ℚ`). -/
structure RmatArgs where
  a : ℚ
  b : ℚ
  c : ℚ
  d : ℚ
  num_edges : ℤ
  num_vertices : ℤ
deriving DecidableEq, Repr

/-- The mutable state of `RmatDataset`: `current_batch`, `next_timestamp` and
the generator.  `gen_cursor` abstracts the `rmat_edge_generator` state as the
number of candidate pairs consumed from the deterministic stream determined
by `rmat_args` (modelled from the spec: the generator, whose implementation
is not among the sources, is deterministic given its construction
parameters, so an equally-parameterised fresh generator replays the same
stream). -/
structure RmatDatasetState where
  args : Args
  rmat_args : RmatArgs
  current_batch : ℤ
  next_timestamp : ℤ
  gen_cursor : ℕ
deriving Repr

/-- `RmatDataset::RmatDataset`'s initial state: counters at zero, generator
freshly constructed from `rmat_args`. -/
def RmatDataset.init (args : Args) (rmat_args : RmatArgs) : RmatDatasetState :=
  { args := args, rmat_args := rmat_args,
    current_batch := 0, next_timestamp := 0, gen_cursor := 0 }

/-- `RmatDataset::reset()`: `current_batch = 0; next_timestamp = 0;
generator = rmat_edge_generator(rmat_args…)` — rewind both counters and
recreate the generator from the original parameters. -/
def RmatDataset.reset (s : RmatDatasetState) : RmatDatasetState :=
  { s with current_batch := 0, next_timestamp := 0, gen_cursor := 0 }

/-- `RmatDataset::getBatch(batchId)`: `assert(batchId == current_batch)`
(failure modelled as `none`), then build an `RmatBatch` of `batch_size` edges
starting at `next_timestamp`, advancing `current_batch`, `next_timestamp`
and the generator. -/
def RmatDataset.getBatch (gen : RmatArgs → ℕ → ℤ × ℤ)
    (hgen : ∀ ra n, ∃ m, n ≤ m ∧ (gen ra m).1 ≠ (gen ra m).2)
    (s : RmatDatasetState) (batchId : ℤ) :
    Option (List Edge × RmatDatasetState) :=
  if batchId = s.current_batch then
    let r := rmatEdges (gen s.rmat_args) (hgen s.rmat_args)
      s.args.batch_size.toNat s.next_timestamp s.gen_cursor
    some (r.1, { s with current_batch := s.current_batch + 1,
                        next_timestamp := s.next_timestamp + s.args.batch_size,
                        gen_cursor := r.2 })
  else none

/-- The sequence of batches returned by `getBatch i, getBatch (i+1), …`
(`n` calls), starting from state `s`. -/
def batchSequence (gen : RmatArgs → ℕ → ℤ × ℤ)
    (hgen : ∀ ra n, ∃ m, n ≤ m ∧ (gen ra m).1 ≠ (gen ra m).2) :
    RmatDatasetState → ℤ → ℕ → List (List Edge)
  | _, _, 0 => []
  | s, i, n + 1 =>
    match RmatDataset.getBatch gen hgen s i with
    | none => []
    | some (es, s') => es :: batchSequence gen hgen s' (i + 1) n

/-- C9: after `reset()` the sequence `getBatch(0), getBatch(1), …` is
identical — edge for edge, in all four fields — to the sequence produced by a
freshly constructed `RmatDataset` with the same parameters, for every state
the dataset may have reached and every number of batches requested. -/
theorem rmat_reset_replays (gen : RmatArgs → ℕ → ℤ × ℤ)
    (hgen : ∀ ra n, ∃ m, n ≤ m ∧ (gen ra m).1 ≠ (gen ra m).2)
    (s : RmatDatasetState) (n : ℕ) :
    batchSequence gen hgen (RmatDataset.reset s) 0 n =
      batchSequence gen hgen (RmatDataset.init s.args s.rmat_args) 0 n := rfl

/-- Parameter-indexed version of the concrete stream `g0`. -/
def gen0 : RmatArgs → ℕ → ℤ × ℤ := fun _ => g0

theorem gen0_spec : ∀ ra n, ∃ m, n ≤ m ∧ (gen0 ra m).1 ≠ (gen0 ra m).2 :=
  fun _ => g0_spec

/-- Witness for C9 at a concrete mid-run state (current_batch 2,
next_timestamp 6, generator cursor 9). -/
theorem rmat_reset_replays_witness :
    batchSequence gen0 gen0_spec
        (RmatDataset.reset ⟨⟨2, "x.rmat", 3, [], SORT_MODE.UNSORTED, 1, 1⟩,
          ⟨1/2, 1/4, 1/8, 1/8, 12, 16⟩, 2, 6, 9⟩) 0 2 =
      batchSequence gen0 gen0_spec
        (RmatDataset.init ⟨2, "x.rmat", 3, [], SORT_MODE.UNSORTED, 1, 1⟩
          ⟨1/2, 1/4, 1/8, 1/8, 12, 16⟩) 0 2 :=
  rmat_reset_replays gen0 gen0_spec _ 2

/-- Counterexample to C4: on the RMAT dataset with num_edges = 9,
batch_size = 3, window_size = 1/4, batch 0 — whose last edge carries
timestamp 2 under the sequential assignment — the code returns 1, while the
claimed formula `max(min_ts, t_last − floor(ws × (max_ts − min_ts)))`
gives 0. -/
theorem rmat_window_claim_counterexample :
    ((rmatEdges g0 g0_spec 3 0 0).1.map Edge.timestamp).getLast? = some 2 ∧
    rmatGetTimestampForWindow 9 3 (1/4) 0 = 1 ∧
    specTimestampForWindow (rmatMinTimestamp 9) (rmatMaxTimestamp 9) (1/4) 2 = 0 ∧
    rmatGetTimestampForWindow 9 3 (1/4) 0 ≠
      specTimestampForWindow (rmatMinTimestamp 9) (rmatMaxTimestamp 9) (1/4) 2 := by
  have hts := (rmatEdges_spec g0 g0_spec 3 0 0).2.2
  have h1 : rmatGetTimestampForWindow 9 3 (1/4) 0 = 1 := by
    have hfl : ⌊(9 : ℚ) * (1/4)⌋ = 2 := by norm_num [Int.floor_eq_iff]
    rw [rmatGetTimestampForWindow]
    rw [show ((9 : ℤ) : ℚ) = (9 : ℚ) by norm_num, hfl]
    norm_num
  have h2 : specTimestampForWindow (rmatMinTimestamp 9) (rmatMaxTimestamp 9)
      (1/4) 2 = 0 := by
    have hfl : ⌊(1/4 : ℚ) * 8⌋ = 2 := by norm_num [Int.floor_eq_iff]
    rw [specTimestampForWindow, rmatMinTimestamp, rmatMaxTimestamp]
    rw [show (((9 : ℤ) - 1 - 0 : ℤ) : ℚ) = (8 : ℚ) by norm_num, hfl]
    norm_num
  refine ⟨?_, h1, h2, by rw [h1, h2]; decide⟩
  rw [hts]
  rfl

/-- `round_down` (helpers.h): floor of a `double`, here of a `ℚ`. -/
def round_down (x : ℚ) : ℤ := ⌊x⌋

/-- `true_div` (helpers.h): divide two integers with `double` result. -/
def true_div (x y : ℤ) : ℚ := (x : ℚ) / (y : ℚ)

/-- `EdgeListDataset::enableAlgsForBatch` = `RmatDataset::enableAlgsForBatch`:
`batches_per_epoch = true_div(num_batches, num_epochs)` (real-valued);
`batches_before = round_down(batch_id / batches_per_epoch)`,
`batches_after = round_down((batch_id+1) / batches_per_epoch)`; enable iff the
count changes.  The `double` arithmetic is modelled exactly over `ℚ`. -/
def enableAlgsForBatch (num_batches num_epochs batch_id : ℤ) : Bool :=
  let batches_per_epoch : ℚ := true_div num_batches num_epochs
  let batches_before : ℤ := round_down ((batch_id : ℚ) / batches_per_epoch)
  let batches_after : ℤ := round_down (((batch_id + 1 : ℤ) : ℚ) / batches_per_epoch)
  decide (batches_after - batches_before > 0)

/-- The epoch counter after `i` batches: `⌊i·E/B⌋`. -/
def floorStep (B E i : ℤ) : ℤ := ⌊(i : ℚ) * (E : ℚ) / (B : ℚ)⌋

theorem enable_iff_floorStep (B E i : ℤ) :
    enableAlgsForBatch B E i = true ↔
      floorStep B E i < floorStep B E (i + 1) := by
  rw [enableAlgsForBatch, floorStep, floorStep]
  simp only [round_down, true_div, div_div_eq_mul_div, decide_eq_true_eq]
  push_cast
  omega

theorem floorStep_mono (B E i : ℤ) (hB : 0 < B) (hE : 0 < E) :
    floorStep B E i ≤ floorStep B E (i + 1) := by
  apply Int.floor_mono
  have hB' : (0 : ℚ) < (B : ℚ) := by exact_mod_cast hB
  have hE' : (0 : ℚ) ≤ (E : ℚ) := by positivity
  apply (div_le_div_iff_of_pos_right hB').mpr
  have : (i : ℚ) ≤ ((i + 1 : ℤ) : ℚ) := by push_cast; linarith
  exact mul_le_mul_of_nonneg_right (by push_cast; linarith) hE'

theorem floorStep_step (B E i : ℤ) (hB : 0 < B) (hEB : E ≤ B) :
    floorStep B E (i + 1) ≤ floorStep B E i + 1 := by
  have hB' : (0 : ℚ) < (B : ℚ) := by exact_mod_cast hB
  have h1 : ((i + 1 : ℤ) : ℚ) * E / B = (i : ℚ) * E / B + (E : ℚ) / B := by
    push_cast
    ring
  have h2 : (E : ℚ) / B ≤ 1 := by
    rw [div_le_one hB']
    exact_mod_cast hEB
  calc floorStep B E (i + 1) = ⌊(i : ℚ) * E / B + (E : ℚ) / B⌋ := by
        rw [floorStep, h1]
  _ ≤ ⌊(i : ℚ) * E / B + 1⌋ := Int.floor_mono (by linarith)
  _ = floorStep B E i + 1 := by rw [floorStep]; exact Int.floor_add_one _

theorem floorStep_nonneg (B E i : ℤ) (hB : 0 < B) (hE : 0 < E) (hi : 0 ≤ i) :
    0 ≤ floorStep B E i := by
  apply Int.floor_nonneg.mpr
  have hB' : (0 : ℚ) < (B : ℚ) := by exact_mod_cast hB
  have : (0 : ℚ) ≤ (i : ℚ) * (E : ℚ) := by
    apply mul_nonneg <;> [exact_mod_cast hi; positivity]
  positivity

theorem floorStep_zero (B E : ℤ) : floorStep B E 0 = 0 := by
  simp [floorStep]

theorem floorStep_num_batches (B E : ℤ) (hB : 0 < B) :
    floorStep B E B = E := by
  rw [floorStep]
  have hB' : ((B : ℚ)) ≠ 0 := by
    have : (0 : ℚ) < (B : ℚ) := by exact_mod_cast hB
    linarith
  rw [mul_comm, mul_div_assoc, div_self hB', mul_one, Int.floor_intCast]

theorem enable_count (B E : ℤ) (hB : 0 < B) (hE : 0 < E) (hEB : E ≤ B) :
    ∀ n : ℕ,
      ((Finset.range n).filter (fun j : ℕ => enableAlgsForBatch B E (j : ℤ) = true)).card
        = (floorStep B E (n : ℤ)).toNat
  | 0 => by simp [floorStep_zero]
  | n + 1 => by
    rw [Finset.range_succ, Finset.filter_insert]
    have hnn : (n : ℤ) + 1 = ((n + 1 : ℕ) : ℤ) := by push_cast; ring
    by_cases hen : enableAlgsForBatch B E (n : ℤ) = true
    · rw [if_pos hen, Finset.card_insert_of_not_mem (by simp),
        enable_count B E hB hE hEB n]
      have hlt := (enable_iff_floorStep B E (n : ℤ)).mp hen
      have hle := floorStep_step B E (n : ℤ) hB hEB
      have hnn0 := floorStep_nonneg B E (n : ℤ) hB hE (by positivity)
      rw [← hnn]
      omega
    · rw [if_neg hen, enable_count B E hB hE hEB n]
      have hmono := floorStep_mono B E (n : ℤ) hB hE
      have hnlt : ¬ floorStep B E (n : ℤ) < floorStep B E ((n : ℤ) + 1) :=
        fun hc => hen ((enable_iff_floorStep B E (n : ℤ)).mpr hc)
      rw [← hnn]
      omega

/-- C2: with `1 ≤ num_epochs ≤ num_batches`, `enableAlgsForBatch` is true for
exactly `num_epochs` distinct batch ids among `0 … num_batches - 1`, and the
final batch id `num_batches - 1` always triggers. -/
theorem enable_algs_exactly_num_epochs (B E : ℤ) (h1 : 1 ≤ E) (h2 : E ≤ B) :
    ((Finset.range B.toNat).filter
        (fun j : ℕ => enableAlgsForBatch B E (j : ℤ) = true)).card = E.toNat ∧
      enableAlgsForBatch B E (B - 1) = true := by
  have hB : 0 < B := by omega
  have hE : 0 < E := by omega
  have hBtoNat : ((B.toNat : ℕ) : ℤ) = B := by omega
  constructor
  · rw [enable_count B E hB hE h2 B.toNat, hBtoNat, floorStep_num_batches B E hB]
  · rw [enable_iff_floorStep]
    have hfin : floorStep B E (B - 1 + 1) = E := by
      rw [show B - 1 + 1 = B by ring, floorStep_num_batches B E hB]
    rw [hfin]
    apply Int.floor_lt.mpr
    have hB' : (0 : ℚ) < (B : ℚ) := by exact_mod_cast hB
    have hE' : (0 : ℚ) < (E : ℚ) := by exact_mod_cast hE
    rw [div_lt_iff₀ hB']
    have : ((B - 1 : ℤ) : ℚ) * E = (B : ℚ) * E - E := by push_cast; ring
    rw [this]
    nlinarith

/-- Witness for C2 at num_batches = 3, num_epochs = 2. -/
theorem enable_algs_exactly_num_epochs_witness :
    ((Finset.range (3 : ℤ).toNat).filter
        (fun j : ℕ => enableAlgsForBatch 3 2 (j : ℤ) = true)).card = (2 : ℤ).toNat ∧
      enableAlgsForBatch 3 2 (3 - 1) = true :=
  enable_algs_exactly_num_epochs 3 2 (by decide) (by decide)

/-- `struct dynograph_args` (C): the fixed `char` arrays become `String`,
`double window_size` becomes `ℚ`. -/
structure DynographArgs where
  num_epochs : ℤ
  input_path : String
  batch_size : ℤ
  alg_names : String
  sort_mode : SORT_MODE
  window_size : ℚ
  num_trials : ℤ
deriving DecidableEq, Repr

/-- `Args::validate` (C++): append one message to the output stream for
every violated constraint and return them all. -/
def Args.validate (a : Args) : List String :=
  (if a.num_epochs < 1 then ["\t--num-epochs must be positive"] else []) ++
  (if a.input_path.length = 0 then ["\t--input-path cannot be empty"] else []) ++
  (if a.batch_size < 1 then ["\t--batch-size must be positive"] else []) ++
  (if a.window_size < 0 ∨ a.window_size > 1 then
    ["\t--window-size must be in the range [0.0, 1.0]"] else []) ++
  (if a.num_trials < 1 then ["\t--num-trials must be positive"] else [])

/-- `validate` (C): `return false` right after printing the FIRST violated
constraint's message; `true` when nothing is violated.  The result pairs the
printed messages with the boolean. -/
def validateC (a : DynographArgs) : List String × Bool :=
  if a.num_epochs < 1 then (["\t--num-epochs must be positive"], false)
  else if a.input_path.length = 0 then (["\t--input-path cannot be empty"], false)
  else if a.batch_size < 1 then (["\t--batch-size must be positive"], false)
  else if a.window_size < 0 ∨ a.window_size > 1 then
    (["\t--window-size must be in the range [0.0, 1.0]"], false)
  else if a.num_trials < 1 then (["\t--num-trials must be positive"], false)
  else ([], true)

/-- The tail of `Args::parse` (C++): `die()` iff `validate()` produced any
message. -/
def argsCheck (a : Args) : Except (List String) Args :=
  if a.validate = [] then .ok a else .error a.validate

/-- The tail of `dynograph_args_parse` (C): `die()` iff `validate` returned
false. -/
def dynographArgsCheck (a : DynographArgs) : Except (List String) DynographArgs :=
  if (validateC a).2 then .ok a else .error (validateC a).1

/-- Counterexample to C8: a configuration violating both the num-epochs and
the batch-size constraints; the C `validate` reports only the first — the
batch-size entry is missing from the diagnostic. -/
theorem validateC_reports_only_first :
    (let a : DynographArgs := ⟨0, "in.graph.el", 0, "", SORT_MODE.UNSORTED, 1, 1⟩
    a.num_epochs < 1 ∧ a.batch_size < 1 ∧
      validateC a = (["\t--num-epochs must be positive"], false) ∧
      "\t--batch-size must be positive" ∉ (validateC a).1) := by
  refine ⟨by decide, by decide, by decide, by decide⟩

/-- C8 (amended): the C++ `Args::validate` returns an itemized list with one
entry for every violated constraint (each message present iff its constraint
is violated; empty iff the configuration is valid) and `Args::parse` dies on
any violation; the C `validate`, however, reports at most one message — the
first violated constraint only — and returns false, upon which
`dynograph_args_parse` dies. -/
theorem validate_itemizes (a : Args) (ca : DynographArgs) :
    ("\t--num-epochs must be positive" ∈ a.validate ↔ a.num_epochs < 1) ∧
    ("\t--input-path cannot be empty" ∈ a.validate ↔ a.input_path.length = 0) ∧
    ("\t--batch-size must be positive" ∈ a.validate ↔ a.batch_size < 1) ∧
    ("\t--window-size must be in the range [0.0, 1.0]" ∈ a.validate ↔
      (a.window_size < 0 ∨ a.window_size > 1)) ∧
    ("\t--num-trials must be positive" ∈ a.validate ↔ a.num_trials < 1) ∧
    (a.validate = [] ↔ ¬(a.num_epochs < 1 ∨ a.input_path.length = 0 ∨
      a.batch_size < 1 ∨ (a.window_size < 0 ∨ a.window_size > 1) ∨
      a.num_trials < 1)) ∧
    (a.validate ≠ [] → ∃ e, argsCheck a = .error e) ∧
    ((validateC ca).2 = false ↔ (ca.num_epochs < 1 ∨ ca.input_path.length = 0 ∨
      ca.batch_size < 1 ∨ (ca.window_size < 0 ∨ ca.window_size > 1) ∨
      ca.num_trials < 1)) ∧
    (validateC ca).1.length ≤ 1 ∧
    ((validateC ca).2 = false → ∃ e, dynographArgsCheck ca = .error e) := by
  have hmem : ("\t--num-epochs must be positive" ∈ a.validate ↔ a.num_epochs < 1) ∧
      ("\t--input-path cannot be empty" ∈ a.validate ↔ a.input_path.length = 0) ∧
      ("\t--batch-size must be positive" ∈ a.validate ↔ a.batch_size < 1) ∧
      ("\t--window-size must be in the range [0.0, 1.0]" ∈ a.validate ↔
        (a.window_size < 0 ∨ a.window_size > 1)) ∧
      ("\t--num-trials must be positive" ∈ a.validate ↔ a.num_trials < 1) ∧
      (a.validate = [] ↔ ¬(a.num_epochs < 1 ∨ a.input_path.length = 0 ∨
        a.batch_size < 1 ∨ (a.window_size < 0 ∨ a.window_size > 1) ∨
        a.num_trials < 1)) := by
    unfold Args.validate
    split_ifs with h1 h2 h3 h4 h5 <;> simp_all
  obtain ⟨hm1, hm2, hm3, hm4, hm5, hm6⟩ := hmem
  refine ⟨hm1, hm2, hm3, hm4, hm5, hm6, ?_, ?_, ?_, ?_⟩
  · intro hne
    rw [argsCheck, if_neg hne]
    exact ⟨_, rfl⟩
  · unfold validateC
    split_ifs <;> simp_all
  · unfold validateC
    split_ifs <;> simp
  · intro hfalse
    refine ⟨(validateC ca).1, ?_⟩
    rw [dynographArgsCheck, if_neg]
    rw [hfalse]
    simp

end DynoGraph
